import Mathlib

/-!
Verification of the junction-graph extraction core of `reverse_waterways.py`.

The scan pass (`JunctionCounter.way`) is embedded as a transition function on
an explicit state; Python `defaultdict(int)` counters and the `dict` endpoint
table are embedded as association lists (insertion-ordered, one entry per key,
absent key reads as 0 / `none`), matching Python dict semantics.
-/

set_option autoImplicit false

namespace ReverseWaterways

/-- Input record: an already-decoded feature, with an id, an ordered node
sequence (`w.nodes[i].ref` in the source) and a tag mapping. -/
structure Feature where
  id : Int
  nodes : List Int
  tags : List (String × String)
  deriving DecidableEq

/-- Membership test of the source guard fragment: the Python expression
`'waterway' in w.tags` (key membership in the tag mapping). -/
def hasWaterway (w : Feature) : Bool :=
  w.tags.any (fun kv => kv.1 == "waterway")

/-- A `defaultdict(int)` counter: keys inserted on first increment, insertion
order preserved, at most one entry per key. -/
abbrev Counter : Type := List (Int × Nat)

/-- Reading path of `defaultdict(int)` / `dict.get(k, 0)`: a stored value, or
0 when the key is absent. -/
def getD : Counter → Int → Nat
  | [], _ => 0
  | (k, v) :: rest, n => if k = n then v else getD rest n

/-- Writing path of `d[k] += 1` on a `defaultdict(int)`: insert the key with
value 1 when absent (appended, keeping insertion order), else add 1 in place. -/
def incr : Counter → Int → Counter
  | [], n => [(n, 1)]
  | (k, v) :: rest, n => if k = n then (k, v + 1) :: rest else (k, v) :: incr rest n

/-- Key set of a counter mapping (what iterating `set(d)` yields in Python). -/
def keys (m : Counter) : List Int := m.map Prod.fst

/-- The endpoint table `way_endpoints : way_id -> (start_node, end_node)`. -/
abbrev EndpointTable : Type := List (Int × (Int × Int))

/-- Writing path of `self.way_endpoints[w.id] = (start, end)`: overwrite in
place when the key exists (Python dicts keep the original position), else
append. -/
def insertEndpoint : EndpointTable → Int → Int × Int → EndpointTable
  | [], i, p => [(i, p)]
  | (k, q) :: rest, i, p =>
      if k = i then (i, p) :: rest else (k, q) :: insertEndpoint rest i p

/-- Reading path of the endpoint table: lookup by feature id. -/
def lookupEndpoint : EndpointTable → Int → Option (Int × Int)
  | [], _ => none
  | (k, q) :: rest, i => if k = i then some q else lookupEndpoint rest i

/-- Key list of the endpoint table, in insertion order. -/
def keysE (t : EndpointTable) : List Int := t.map Prod.fst

/-- Mutable state of `JunctionCounter`: the two degree counters and the
endpoint table. -/
structure CounterState where
  node_to_way_start : Counter
  node_to_way_end : Counter
  way_endpoints : EndpointTable
  deriving DecidableEq

/-- State built by `JunctionCounter.__init__`: empty counters, empty table. -/
def initState : CounterState := ⟨[], [], []⟩

/-- Guard of `JunctionCounter.way`: `'waterway' in w.tags and len(w.nodes) > 1`. -/
def qualifies (w : Feature) : Bool :=
  hasWaterway w && decide (1 < w.nodes.length)

/-- The value `w.nodes[0].ref`. The default 0 is never used: every call site
is guarded by `qualifies`, which forces `w.nodes` to be non-empty. -/
def wstart (w : Feature) : Int := w.nodes.headD 0

/-- The value `w.nodes[-1].ref`. The default 0 is never used, as for `wstart`. -/
def wend (w : Feature) : Int := w.nodes.getLastD 0

/-- One call of `JunctionCounter.way` on one feature: record the endpoints and
bump both counters when the guard holds, otherwise leave the state untouched. -/
def way (s : CounterState) (w : Feature) : CounterState :=
  if qualifies w then
    ⟨incr s.node_to_way_start (wstart w),
     incr s.node_to_way_end (wend w),
     insertEndpoint s.way_endpoints w.id (wstart w, wend w)⟩
  else s

/-- The scan pass starting from an arbitrary state: `apply_file` feeds the
features to `way` one by one in stream order. -/
def scanFrom (s : CounterState) (fs : List Feature) : CounterState :=
  fs.foldl way s

/-- The full scan pass of `analyze_file`: a fresh handler applied to the
decoded feature stream. -/
def scan (fs : List Feature) : CounterState :=
  scanFrom initState fs

/-- The iteration domain `set(node_to_way_start) | set(node_to_way_end)`:
the union of the key sets of the two counters (as a duplicate-free list; only
membership matters, the Python object is a set). -/
def nodeIds (s : CounterState) : List Int :=
  (keys s.node_to_way_start ++ keys s.node_to_way_end).dedup

/-- The classification test of `analyze_file`, lines 37-39:
`(end_count == 2 and start_count == 0) or (start_count == 2 and end_count == 0)`,
with both counts read through the absent-key-is-0 path. -/
def isJunction (s : CounterState) (n : Int) : Bool :=
  (getD s.node_to_way_end n == 2 && getD s.node_to_way_start n == 0) ||
  (getD s.node_to_way_start n == 2 && getD s.node_to_way_end n == 0)

/-- The junction node set built by the classifier loop (as a duplicate-free
list; the Python object is a set, only membership matters). -/
def junction_nodes (s : CounterState) : List Int :=
  (nodeIds s).filter (fun n => isJunction s n)

/-- The list comprehension of lines 43-46: feature ids whose stored endpoint
pair lies entirely in the junction set, in endpoint-table order. -/
def ways_between_junctions (s : CounterState) : List Int :=
  (s.way_endpoints.filter
    (fun e => decide (e.2.1 ∈ junction_nodes s) && decide (e.2.2 ∈ junction_nodes s))).map
    Prod.fst

/-- The computational content of `analyze_file`: the selected edge list and
the reported count `len(ways_between_junctions)` (printing and the interactive
JOSM loop are I/O, outside the core). -/
def analyze_file (fs : List Feature) : List Int × Nat :=
  (ways_between_junctions (scan fs), (ways_between_junctions (scan fs)).length)

/-! Basic lemmas about the counter structure. -/

theorem getD_incr_self (m : Counter) (k : Int) :
    getD (incr m k) k = getD m k + 1 := by
  induction m with
  | nil => simp [incr, getD]
  | cons kv rest ih =>
      obtain ⟨k', v⟩ := kv
      by_cases h : k' = k <;> simp [incr, getD, h, ih]

theorem getD_incr_ne (m : Counter) (k n : Int) (h : n ≠ k) :
    getD (incr m k) n = getD m n := by
  have hk : ¬ k = n := fun hh => h hh.symm
  induction m with
  | nil => simp [incr, getD, hk]
  | cons kv rest ih =>
      obtain ⟨k', v⟩ := kv
      by_cases hkk : k' = k
      · subst hkk
        simp [incr, getD, hk]
      · by_cases hn : k' = n <;> simp [incr, getD, h, hkk, hn, ih]

theorem mem_keys_incr (m : Counter) (k n : Int) :
    n ∈ keys (incr m k) ↔ n = k ∨ n ∈ keys m := by
  induction m with
  | nil => simp [incr, keys]
  | cons kv rest ih =>
      obtain ⟨k', v⟩ := kv
      by_cases hk : k' = k
      · subst hk
        have hstep : incr ((k', v) :: rest) k' = (k', v + 1) :: rest := by
          simp [incr]
        rw [hstep]
        simp only [keys, List.map_cons, List.mem_cons]
        tauto
      · simp only [incr, if_neg hk, keys, List.map_cons, List.mem_cons] at ih ⊢
        tauto

/-- C1 helper: membership in the key union iterated by the classifier. -/
theorem mem_nodeIds (s : CounterState) (n : Int) :
    n ∈ nodeIds s ↔ n ∈ keys s.node_to_way_start ∨ n ∈ keys s.node_to_way_end := by
  simp [nodeIds, List.mem_dedup, List.mem_append]

/-- C1. A node is classified as a junction iff it lies in the union of the two
counters' key sets and its counts match the two-same-direction/zero-opposite
rule, absent keys reading as 0; in particular no node outside that union is
ever classified as a junction. -/
theorem junction_classification (s : CounterState) (n : Int) :
    n ∈ junction_nodes s ↔
      ((n ∈ keys s.node_to_way_start ∨ n ∈ keys s.node_to_way_end) ∧
        ((getD s.node_to_way_end n = 2 ∧ getD s.node_to_way_start n = 0) ∨
         (getD s.node_to_way_start n = 2 ∧ getD s.node_to_way_end n = 0))) := by
  rw [junction_nodes, List.mem_filter, mem_nodeIds]
  constructor
  · rintro ⟨hmem, hcond⟩
    refine ⟨hmem, ?_⟩
    simpa [isJunction] using hcond
  · rintro ⟨hmem, hcond⟩
    refine ⟨hmem, ?_⟩
    simpa [isJunction] using hcond

/-- C5. The core is total (every definition above is a total function), and on
the empty input stream it produces an empty junction set, an empty result edge
list and a reported count of 0. -/
theorem analyze_empty :
    junction_nodes (scan []) = [] ∧ analyze_file [] = ([], 0) := by
  constructor <;> rfl

/-- Scenario feature A of the closed triangle: waterway with nodes [1,2,3]. -/
def triA : Feature := ⟨101, [1, 2, 3], [("waterway", "river")]⟩

/-- Scenario feature B of the closed triangle: waterway with nodes [3,4,5]. -/
def triB : Feature := ⟨102, [3, 4, 5], [("waterway", "river")]⟩

/-- Scenario feature C of the closed triangle: waterway with nodes [5,6,1]. -/
def triC : Feature := ⟨103, [5, 6, 1], [("waterway", "river")]⟩

/-- C7. On the closed triangle A:[1,2,3], B:[3,4,5], C:[5,6,1], each shared
node 1, 3, 5 has starts count 1 and ends count 1, no node is classified as a
junction, and the reported count is 0. -/
theorem triangle_scenario :
    getD (scan [triA, triB, triC]).node_to_way_start 1 = 1 ∧
    getD (scan [triA, triB, triC]).node_to_way_end 1 = 1 ∧
    getD (scan [triA, triB, triC]).node_to_way_start 3 = 1 ∧
    getD (scan [triA, triB, triC]).node_to_way_end 3 = 1 ∧
    getD (scan [triA, triB, triC]).node_to_way_start 5 = 1 ∧
    getD (scan [triA, triB, triC]).node_to_way_end 5 = 1 ∧
    junction_nodes (scan [triA, triB, triC]) = [] ∧
    (analyze_file [triA, triB, triC]).2 = 0 := by
  decide

/-! Lemmas about the endpoint table. -/

theorem lookup_insert_self (t : EndpointTable) (k : Int) (p : Int × Int) :
    lookupEndpoint (insertEndpoint t k p) k = some p := by
  induction t with
  | nil => simp [insertEndpoint, lookupEndpoint]
  | cons kq rest ih =>
      obtain ⟨k', q⟩ := kq
      by_cases hk : k' = k
      · simp [insertEndpoint, lookupEndpoint, hk]
      · simp [insertEndpoint, lookupEndpoint, hk, ih]

theorem lookup_insert_ne (t : EndpointTable) (k j : Int) (p : Int × Int)
    (h : j ≠ k) :
    lookupEndpoint (insertEndpoint t k p) j = lookupEndpoint t j := by
  have hk : ¬ k = j := fun hh => h hh.symm
  induction t with
  | nil => simp [insertEndpoint, lookupEndpoint, hk]
  | cons kq rest ih =>
      obtain ⟨k', q⟩ := kq
      by_cases hkk : k' = k
      · subst hkk
        simp [insertEndpoint, lookupEndpoint, hk]
      · by_cases hj : k' = j <;>
          simp [insertEndpoint, lookupEndpoint, h, hk, hkk, hj, ih]

/-- Full effect of one qualifying `way` call: the endpoint entry is written
under the feature id, each counter is bumped by exactly 1 at the relevant
node, and nothing else changes. Shared basis for the per-feature claims. -/
theorem way_effect (s : CounterState) (w : Feature) (hq : qualifies w = true) :
    lookupEndpoint (way s w).way_endpoints w.id = some (wstart w, wend w) ∧
    getD (way s w).node_to_way_start (wstart w) =
      getD s.node_to_way_start (wstart w) + 1 ∧
    getD (way s w).node_to_way_end (wend w) =
      getD s.node_to_way_end (wend w) + 1 ∧
    (∀ j, j ≠ w.id →
      lookupEndpoint (way s w).way_endpoints j = lookupEndpoint s.way_endpoints j) ∧
    (∀ n, n ≠ wstart w →
      getD (way s w).node_to_way_start n = getD s.node_to_way_start n) ∧
    (∀ n, n ≠ wend w →
      getD (way s w).node_to_way_end n = getD s.node_to_way_end n) := by
  simp only [way, if_pos hq]
  refine ⟨lookup_insert_self _ _ _, getD_incr_self _ _, getD_incr_self _ _,
    fun j hj => lookup_insert_ne _ _ _ _ hj,
    fun n hn => getD_incr_ne _ _ _ hn,
    fun n hn => getD_incr_ne _ _ _ hn⟩

/-- C2. A feature with a waterway tag and at least two nodes gets exactly one
endpoint-table entry under its id, mapping to `(nodes[0], nodes[-1])`, and
bumps `starts[nodes[0]]` and `ends[nodes[-1]]` by exactly 1 each (all other
table entries and counter values are untouched). -/
theorem way_qualifying (s : CounterState) (w : Feature)
    (hw : hasWaterway w = true) (hn : 2 ≤ w.nodes.length) :
    lookupEndpoint (way s w).way_endpoints w.id = some (wstart w, wend w) ∧
    getD (way s w).node_to_way_start (wstart w) =
      getD s.node_to_way_start (wstart w) + 1 ∧
    getD (way s w).node_to_way_end (wend w) =
      getD s.node_to_way_end (wend w) + 1 ∧
    (∀ j, j ≠ w.id →
      lookupEndpoint (way s w).way_endpoints j = lookupEndpoint s.way_endpoints j) ∧
    (∀ n, n ≠ wstart w →
      getD (way s w).node_to_way_start n = getD s.node_to_way_start n) ∧
    (∀ n, n ≠ wend w →
      getD (way s w).node_to_way_end n = getD s.node_to_way_end n) := by
  have hq : qualifies w = true := by
    have h1 : 1 < w.nodes.length := by omega
    simp [qualifies, hw, h1]
  exact way_effect s w hq

/-- Concrete two-node waterway used to witness the qualifying-feature claim. -/
def wAB : Feature := ⟨201, [4, 8], [("waterway", "stream")]⟩

/-- Witness for C2 at a concrete qualifying feature. -/
theorem way_qualifying_witness :
    hasWaterway wAB = true ∧ 2 ≤ wAB.nodes.length ∧
      lookupEndpoint (way initState wAB).way_endpoints 201 = some (4, 8) :=
  ⟨by decide, by decide,
    (way_qualifying initState wAB (by decide) (by decide)).1⟩

/-- C3. A feature without a waterway tag, or with fewer than two nodes, leaves
the whole handler state (both counters and the endpoint table) unchanged. -/
theorem way_skip (s : CounterState) (w : Feature)
    (h : hasWaterway w = false ∨ w.nodes.length < 2) :
    way s w = s := by
  have hq : qualifies w = false := by
    rcases h with h | h
    · simp [qualifies, h]
    · have h1 : ¬ (1 < w.nodes.length) := by omega
      simp [qualifies, h1]
  simp [way, hq]

/-- Concrete non-waterway feature used to witness the skip claim. -/
def wNoTag : Feature := ⟨202, [1, 2, 3], [("highway", "track")]⟩

/-- Witness for C3 at a concrete untagged feature. -/
theorem way_skip_witness :
    (hasWaterway wNoTag = false ∨ wNoTag.nodes.length < 2) ∧
      way initState wNoTag = initState :=
  ⟨Or.inl (by decide), way_skip initState wNoTag (Or.inl (by decide))⟩

/-- C8. A qualifying closed loop (start node equal to end node, at least two
nodes, waterway-tagged) is not rejected: it gets an endpoint entry whose two
components are that same node, and bumps both counters at that node by 1. -/
theorem way_loop (s : CounterState) (w : Feature)
    (hw : hasWaterway w = true) (hn : 2 ≤ w.nodes.length)
    (hl : wstart w = wend w) :
    lookupEndpoint (way s w).way_endpoints w.id = some (wstart w, wstart w) ∧
    getD (way s w).node_to_way_start (wstart w) =
      getD s.node_to_way_start (wstart w) + 1 ∧
    getD (way s w).node_to_way_end (wstart w) =
      getD s.node_to_way_end (wstart w) + 1 := by
  have hq : qualifies w = true := by
    have h1 : 1 < w.nodes.length := by omega
    simp [qualifies, hw, h1]
  obtain ⟨h1, h2, h3, -, -, -⟩ := way_effect s w hq
  rw [hl]
  exact ⟨by rw [h1, hl], by rw [hl] at h2; exact h2, h3⟩

/-- Concrete degenerate loop `[7,7]` used to witness the loop claim. -/
def wLoop : Feature := ⟨203, [7, 7], [("waterway", "ditch")]⟩

/-- Witness for C8 at the degenerate loop `[7,7]`. -/
theorem way_loop_witness :
    hasWaterway wLoop = true ∧ 2 ≤ wLoop.nodes.length ∧ wstart wLoop = wend wLoop ∧
      lookupEndpoint (way initState wLoop).way_endpoints 203 = some (7, 7) :=
  ⟨by decide, by decide, by decide,
    (way_loop initState wLoop (by decide) (by decide) (by decide)).1⟩

/-! Characterization of the scan pass in terms of the input stream. -/

/-- Number of qualifying features of the stream whose first node is `n`. -/
def countSt (fs : List Feature) (n : Int) : Nat :=
  fs.countP (fun w => qualifies w && (wstart w == n))

/-- Number of qualifying features of the stream whose last node is `n`. -/
def countEn (fs : List Feature) (n : Int) : Nat :=
  fs.countP (fun w => qualifies w && (wend w == n))

theorem scanFrom_cons (s : CounterState) (w : Feature) (fs : List Feature) :
    scanFrom s (w :: fs) = scanFrom (way s w) fs := rfl

theorem getD_scanFrom_start (fs : List Feature) (s : CounterState) (n : Int) :
    getD (scanFrom s fs).node_to_way_start n =
      getD s.node_to_way_start n + countSt fs n := by
  induction fs generalizing s with
  | nil => simp [scanFrom, countSt]
  | cons w fs ih =>
      rw [scanFrom_cons, ih]
      by_cases hq : qualifies w = true
      · by_cases hn : wstart w = n
        · have h1 : getD (way s w).node_to_way_start n =
              getD s.node_to_way_start n + 1 := by
            rw [← hn]
            simp only [way, if_pos hq]
            exact getD_incr_self _ _
          have hcnt : countSt (w :: fs) n = countSt fs n + 1 := by
            simp [countSt, List.countP_cons, hq, hn]
          rw [h1, hcnt]
          omega
        · have h1 : getD (way s w).node_to_way_start n =
              getD s.node_to_way_start n := by
            simp only [way, if_pos hq]
            exact getD_incr_ne _ _ _ (fun hh => hn hh.symm)
          have hcnt : countSt (w :: fs) n = countSt fs n := by
            simp [countSt, List.countP_cons, hn]
          rw [h1, hcnt]
      · have hq' : qualifies w = false := by simpa using hq
        have h1 : way s w = s := by simp [way, hq']
        have hcnt : countSt (w :: fs) n = countSt fs n := by
          simp [countSt, List.countP_cons, hq']
        rw [h1, hcnt]

theorem getD_scanFrom_end (fs : List Feature) (s : CounterState) (n : Int) :
    getD (scanFrom s fs).node_to_way_end n =
      getD s.node_to_way_end n + countEn fs n := by
  induction fs generalizing s with
  | nil => simp [scanFrom, countEn]
  | cons w fs ih =>
      rw [scanFrom_cons, ih]
      by_cases hq : qualifies w = true
      · by_cases hn : wend w = n
        · have h1 : getD (way s w).node_to_way_end n =
              getD s.node_to_way_end n + 1 := by
            rw [← hn]
            simp only [way, if_pos hq]
            exact getD_incr_self _ _
          have hcnt : countEn (w :: fs) n = countEn fs n + 1 := by
            simp [countEn, List.countP_cons, hq, hn]
          rw [h1, hcnt]
          omega
        · have h1 : getD (way s w).node_to_way_end n =
              getD s.node_to_way_end n := by
            simp only [way, if_pos hq]
            exact getD_incr_ne _ _ _ (fun hh => hn hh.symm)
          have hcnt : countEn (w :: fs) n = countEn fs n := by
            simp [countEn, List.countP_cons, hn]
          rw [h1, hcnt]
      · have hq' : qualifies w = false := by simpa using hq
        have h1 : way s w = s := by simp [way, hq']
        have hcnt : countEn (w :: fs) n = countEn fs n := by
          simp [countEn, List.countP_cons, hq']
        rw [h1, hcnt]

theorem getD_scan_start (fs : List Feature) (n : Int) :
    getD (scan fs).node_to_way_start n = countSt fs n := by
  have h := getD_scanFrom_start fs initState n
  simpa [initState, getD] using h

theorem getD_scan_end (fs : List Feature) (n : Int) :
    getD (scan fs).node_to_way_end n = countEn fs n := by
  have h := getD_scanFrom_end fs initState n
  simpa [initState, getD] using h

theorem mem_keys_scanFrom_start (fs : List Feature) (s : CounterState) (n : Int) :
    n ∈ keys (scanFrom s fs).node_to_way_start ↔
      n ∈ keys s.node_to_way_start ∨ 0 < countSt fs n := by
  induction fs generalizing s with
  | nil => simp [scanFrom, countSt]
  | cons w fs ih =>
      rw [scanFrom_cons, ih]
      by_cases hq : qualifies w = true
      · have h1 : n ∈ keys (way s w).node_to_way_start ↔
            (n = wstart w ∨ n ∈ keys s.node_to_way_start) := by
          simp only [way, if_pos hq]
          exact mem_keys_incr _ _ _
        rw [h1]
        by_cases hn : wstart w = n
        · have hcnt : countSt (w :: fs) n = countSt fs n + 1 := by
            simp [countSt, List.countP_cons, hq, hn]
          rw [hcnt]
          subst hn
          simp
        · have hcnt : countSt (w :: fs) n = countSt fs n := by
            simp [countSt, List.countP_cons, hn]
          rw [hcnt]
          have hne : ¬ n = wstart w := fun hh => hn hh.symm
          tauto
      · have hq' : qualifies w = false := by simpa using hq
        have h1 : way s w = s := by simp [way, hq']
        have hcnt : countSt (w :: fs) n = countSt fs n := by
          simp [countSt, List.countP_cons, hq']
        rw [h1, hcnt]

theorem mem_keys_scanFrom_end (fs : List Feature) (s : CounterState) (n : Int) :
    n ∈ keys (scanFrom s fs).node_to_way_end ↔
      n ∈ keys s.node_to_way_end ∨ 0 < countEn fs n := by
  induction fs generalizing s with
  | nil => simp [scanFrom, countEn]
  | cons w fs ih =>
      rw [scanFrom_cons, ih]
      by_cases hq : qualifies w = true
      · have h1 : n ∈ keys (way s w).node_to_way_end ↔
            (n = wend w ∨ n ∈ keys s.node_to_way_end) := by
          simp only [way, if_pos hq]
          exact mem_keys_incr _ _ _
        rw [h1]
        by_cases hn : wend w = n
        · have hcnt : countEn (w :: fs) n = countEn fs n + 1 := by
            simp [countEn, List.countP_cons, hq, hn]
          rw [hcnt]
          subst hn
          simp
        · have hcnt : countEn (w :: fs) n = countEn fs n := by
            simp [countEn, List.countP_cons, hn]
          rw [hcnt]
          have hne : ¬ n = wend w := fun hh => hn hh.symm
          tauto
      · have hq' : qualifies w = false := by simpa using hq
        have h1 : way s w = s := by simp [way, hq']
        have hcnt : countEn (w :: fs) n = countEn fs n := by
          simp [countEn, List.countP_cons, hq']
        rw [h1, hcnt]

theorem mem_keys_scan_start (fs : List Feature) (n : Int) :
    n ∈ keys (scan fs).node_to_way_start ↔ 0 < countSt fs n := by
  have h := mem_keys_scanFrom_start fs initState n
  simpa [initState, keys] using h

theorem mem_keys_scan_end (fs : List Feature) (n : Int) :
    n ∈ keys (scan fs).node_to_way_end ↔ 0 < countEn fs n := by
  have h := mem_keys_scanFrom_end fs initState n
  simpa [initState, keys] using h

theorem mem_junction_nodes (s : CounterState) (n : Int) :
    n ∈ junction_nodes s ↔ n ∈ nodeIds s ∧ isJunction s n = true :=
  List.mem_filter

/-- Junction membership after the scan, purely in terms of the input stream. -/
theorem junction_scan_char (fs : List Feature) (n : Int) :
    n ∈ junction_nodes (scan fs) ↔
      ((0 < countSt fs n ∨ 0 < countEn fs n) ∧
        ((countEn fs n = 2 ∧ countSt fs n = 0) ∨
         (countSt fs n = 2 ∧ countEn fs n = 0))) := by
  rw [mem_junction_nodes, mem_nodeIds, mem_keys_scan_start, mem_keys_scan_end]
  have hj : isJunction (scan fs) n = true ↔
      ((countEn fs n = 2 ∧ countSt fs n = 0) ∨
       (countSt fs n = 2 ∧ countEn fs n = 0)) := by
    simp [isJunction, getD_scan_start, getD_scan_end]
  rw [hj]

/-! Endpoint-table structure of scan states. -/

theorem insert_fresh (t : EndpointTable) (k : Int) (p : Int × Int)
    (h : k ∉ keysE t) : insertEndpoint t k p = t ++ [(k, p)] := by
  induction t with
  | nil => rfl
  | cons kq rest ih =>
      obtain ⟨k', q⟩ := kq
      have h2 : k ∉ keysE rest := by
        intro hm
        exact h (by simp only [keysE, List.map_cons, List.mem_cons]; right; exact hm)
      have hk : ¬ k' = k := by
        intro hh
        exact h (by simp [keysE, hh])
      simp [insertEndpoint, hk, ih h2]

theorem keysE_insertEndpoint (t : EndpointTable) (k : Int) (p : Int × Int) :
    keysE (insertEndpoint t k p) =
      if k ∈ keysE t then keysE t else keysE t ++ [k] := by
  by_cases hm : k ∈ keysE t
  · rw [if_pos hm]
    induction t with
    | nil => simp [keysE] at hm
    | cons kq rest ih =>
        obtain ⟨k', q⟩ := kq
        by_cases hk : k' = k
        · subst hk
          have hstep : insertEndpoint ((k', q) :: rest) k' p = (k', p) :: rest := by
            simp [insertEndpoint]
          rw [hstep]
          simp [keysE]
        · have hm' : k ∈ keysE rest := by
            rcases (by simpa [keysE] using hm : k = k' ∨ k ∈ keysE rest) with hh | hh
            · exact absurd hh.symm hk
            · exact hh
          simp only [insertEndpoint, if_neg hk, keysE, List.map_cons] at ih ⊢
          rw [ih hm']
  · rw [if_neg hm, insert_fresh t k p hm]
    simp [keysE]

theorem nodup_keysE_insert (t : EndpointTable) (k : Int) (p : Int × Int)
    (h : (keysE t).Nodup) : (keysE (insertEndpoint t k p)).Nodup := by
  rw [keysE_insertEndpoint]
  by_cases hm : k ∈ keysE t
  · simpa [hm] using h
  · rw [if_neg hm]
    simp [List.nodup_append, h, hm]

theorem nodup_keysE_scan (fs : List Feature) :
    (keysE (scan fs).way_endpoints).Nodup := by
  have main : ∀ (gs : List Feature) (s : CounterState),
      (keysE s.way_endpoints).Nodup →
      (keysE (scanFrom s gs).way_endpoints).Nodup := by
    intro gs
    induction gs with
    | nil => intro s h; exact h
    | cons w gs ih =>
        intro s h
        rw [scanFrom_cons]
        apply ih
        by_cases hq : qualifies w = true
        · simp only [way, if_pos hq]
          exact nodup_keysE_insert _ _ _ h
        · have hq' : qualifies w = false := by simpa using hq
          simpa [way, hq'] using h
  exact main fs initState (by simp [initState, keysE])

theorem lookup_eq_some_iff (t : EndpointTable) (hnd : (keysE t).Nodup)
    (j : Int) (p : Int × Int) :
    lookupEndpoint t j = some p ↔ (j, p) ∈ t := by
  induction t with
  | nil => simp [lookupEndpoint]
  | cons kq rest ih =>
      obtain ⟨k, q⟩ := kq
      have hnd' : (keysE rest).Nodup := by
        have hh : (k :: keysE rest).Nodup := by simpa [keysE] using hnd
        exact hh.of_cons
      have hknot : k ∉ keysE rest := by
        have hh : (k :: keysE rest).Nodup := by simpa [keysE] using hnd
        exact (List.nodup_cons.mp hh).1
      by_cases hk : k = j
      · subst hk
        have hstep : lookupEndpoint ((k, q) :: rest) k = some q := by
          simp [lookupEndpoint]
        rw [hstep]
        constructor
        · intro hh
          have : q = p := by injection hh
          subst this
          exact List.mem_cons_self _ _
        · intro hh
          rcases List.mem_cons.mp hh with hh | hh
          · have : p = q := by
              have := congrArg Prod.snd hh
              simpa using this
            subst this
            rfl
          · exact absurd (List.mem_map_of_mem Prod.fst hh) hknot
      · have hstep : lookupEndpoint ((k, q) :: rest) j = lookupEndpoint rest j := by
          simp [lookupEndpoint, hk]
        rw [hstep, ih hnd']
        constructor
        · intro hh
          exact List.mem_cons_of_mem _ hh
        · intro hh
          rcases List.mem_cons.mp hh with hh | hh
          · exact absurd (congrArg Prod.fst hh).symm hk
          · exact hh

/-- Membership in the selected edge list, for any state whose endpoint table
has duplicate-free keys. -/
theorem mem_ways_between (s : CounterState)
    (hnd : (keysE s.way_endpoints).Nodup) (wid : Int) :
    wid ∈ ways_between_junctions s ↔
      ∃ st en, lookupEndpoint s.way_endpoints wid = some (st, en) ∧
        st ∈ junction_nodes s ∧ en ∈ junction_nodes s := by
  unfold ways_between_junctions
  rw [List.mem_map]
  constructor
  · rintro ⟨e, he, rfl⟩
    rw [List.mem_filter] at he
    obtain ⟨hmem, hcond⟩ := he
    obtain ⟨i, st, en⟩ := e
    have hcond' : st ∈ junction_nodes s ∧ en ∈ junction_nodes s := by
      simpa using hcond
    exact ⟨st, en, (lookup_eq_some_iff _ hnd _ _).mpr hmem, hcond'.1, hcond'.2⟩
  · rintro ⟨st, en, hlook, hst, hen⟩
    refine ⟨(wid, st, en), ?_, rfl⟩
    rw [List.mem_filter]
    exact ⟨(lookup_eq_some_iff _ hnd _ _).mp hlook, by simp [hst, hen]⟩

theorem ways_between_sublist_keysE (s : CounterState) :
    (ways_between_junctions s).Sublist (keysE s.way_endpoints) :=
  List.Sublist.map Prod.fst (List.filter_sublist _)

theorem nodup_ways_between (fs : List Feature) :
    (ways_between_junctions (scan fs)).Nodup :=
  List.Nodup.sublist (ways_between_sublist_keysE (scan fs)) (nodup_keysE_scan fs)

/-- C4. A feature id is in the result edge list iff its stored endpoint pair
has both components in the junction set; the list follows endpoint-table
(scan) order, has no duplicates, and the reported count is its length. -/
theorem selection_spec (fs : List Feature) :
    (∀ wid, wid ∈ (analyze_file fs).1 ↔
      ∃ st en, lookupEndpoint (scan fs).way_endpoints wid = some (st, en) ∧
        st ∈ junction_nodes (scan fs) ∧ en ∈ junction_nodes (scan fs)) ∧
    (analyze_file fs).1.Sublist (keysE (scan fs).way_endpoints) ∧
    (analyze_file fs).1.Nodup ∧
    (analyze_file fs).2 = (analyze_file fs).1.length :=
  ⟨fun wid => mem_ways_between (scan fs) (nodup_keysE_scan fs) wid,
    ways_between_sublist_keysE (scan fs), nodup_ways_between fs, rfl⟩

/-! Endpoint table as a list, for streams with pairwise distinct feature ids
(the data model guarantees ids unique within one run). -/

/-- The endpoint-table entry written for one qualifying feature. -/
def entryOf (w : Feature) : Int × (Int × Int) := (w.id, (wstart w, wend w))

theorem scanFrom_endpoints (fs : List Feature) :
    ∀ (s : CounterState), (∀ w ∈ fs, w.id ∉ keysE s.way_endpoints) →
      (fs.map Feature.id).Nodup →
      (scanFrom s fs).way_endpoints =
        s.way_endpoints ++ (fs.filter (fun w => qualifies w)).map entryOf := by
  induction fs with
  | nil => intro s _ _; simp [scanFrom]
  | cons w fs ih =>
      intro s hfresh hids
      rw [scanFrom_cons]
      have hids' : (fs.map Feature.id).Nodup :=
        (List.nodup_cons.mp (by simpa using hids)).2
      have hwnot : w.id ∉ fs.map Feature.id :=
        (List.nodup_cons.mp (by simpa using hids)).1
      by_cases hq : qualifies w = true
      · have hins : (way s w).way_endpoints = s.way_endpoints ++ [entryOf w] := by
          simp only [way, if_pos hq]
          exact insert_fresh _ _ _ (hfresh w (List.mem_cons_self _ _))
        have hfresh' : ∀ w' ∈ fs, w'.id ∉ keysE (way s w).way_endpoints := by
          intro w' hw'
          rw [hins]
          simp only [keysE, List.map_append, List.mem_append]
          rintro (hmem | hmem)
          · exact hfresh w' (List.mem_cons_of_mem _ hw') hmem
          · have heq : w'.id = w.id := by simpa [entryOf] using hmem
            exact hwnot (heq ▸ List.mem_map_of_mem Feature.id hw')
        rw [ih (way s w) hfresh' hids', hins]
        simp [List.filter_cons, hq]
      · have hq' : qualifies w = false := by simpa using hq
        have hskip : way s w = s := by simp [way, hq']
        rw [hskip, ih s (fun w' hw' => hfresh w' (List.mem_cons_of_mem _ hw')) hids']
        simp [List.filter_cons, hq']

theorem scan_endpoints (fs : List Feature) (hids : (fs.map Feature.id).Nodup) :
    (scan fs).way_endpoints = (fs.filter (fun w => qualifies w)).map entryOf := by
  have h := scanFrom_endpoints fs initState
    (by intro w hw; simp [initState, keysE]) hids
  simpa [initState] using h

/-- Membership in the result edge list, purely in terms of the input stream,
for streams with pairwise distinct feature ids. -/
theorem mem_result_char (fs : List Feature) (hids : (fs.map Feature.id).Nodup)
    (wid : Int) :
    wid ∈ (analyze_file fs).1 ↔
      ∃ w ∈ fs, qualifies w = true ∧ wstart w ∈ junction_nodes (scan fs) ∧
        wend w ∈ junction_nodes (scan fs) ∧ w.id = wid := by
  show wid ∈ ways_between_junctions (scan fs) ↔ _
  unfold ways_between_junctions
  rw [scan_endpoints fs hids]
  constructor
  · intro hh
    rcases List.mem_map.mp hh with ⟨e, he, hfst⟩
    rcases List.mem_filter.mp he with ⟨hmem, hcond⟩
    rcases List.mem_map.mp hmem with ⟨w, hwmem, hentry⟩
    rcases List.mem_filter.mp hwmem with ⟨hwfs, hwq⟩
    subst hentry
    have hcond' : wstart w ∈ junction_nodes (scan fs) ∧
        wend w ∈ junction_nodes (scan fs) := by
      simpa [entryOf] using hcond
    exact ⟨w, hwfs, hwq, hcond'.1, hcond'.2, by simpa [entryOf] using hfst⟩
  · rintro ⟨w, hwfs, hwq, hst, hen, hid⟩
    refine List.mem_map.mpr ⟨entryOf w, ?_, by simpa [entryOf] using hid⟩
    refine List.mem_filter.mpr
      ⟨List.mem_map_of_mem entryOf (List.mem_filter.mpr ⟨hwfs, hwq⟩), ?_⟩
    simp [entryOf, hst, hen]

/-- C6. Permuting the input stream (feature ids pairwise distinct, as the data
model guarantees for one run) changes neither the junction set, nor the result
edge list's contents as a set, nor the reported count; only list order may
differ. -/
theorem analyze_perm (fs fs' : List Feature) (hp : fs.Perm fs')
    (hids : (fs.map Feature.id).Nodup) :
    (∀ n, n ∈ junction_nodes (scan fs) ↔ n ∈ junction_nodes (scan fs')) ∧
    (∀ wid, wid ∈ (analyze_file fs).1 ↔ wid ∈ (analyze_file fs').1) ∧
    (analyze_file fs).2 = (analyze_file fs').2 := by
  have hids' : (fs'.map Feature.id).Nodup := ((hp.map Feature.id).nodup_iff).mp hids
  have hSt : ∀ n, countSt fs n = countSt fs' n := fun n => List.Perm.countP_eq _ hp
  have hEn : ∀ n, countEn fs n = countEn fs' n := fun n => List.Perm.countP_eq _ hp
  have hjunc : ∀ n, n ∈ junction_nodes (scan fs) ↔ n ∈ junction_nodes (scan fs') := by
    intro n
    rw [junction_scan_char, junction_scan_char, hSt n, hEn n]
  have hmemres : ∀ wid, wid ∈ (analyze_file fs).1 ↔ wid ∈ (analyze_file fs').1 := by
    intro wid
    rw [mem_result_char fs hids wid, mem_result_char fs' hids' wid]
    constructor
    · rintro ⟨w, hw, hq, hst, hen, hid⟩
      exact ⟨w, hp.mem_iff.mp hw, hq, (hjunc _).mp hst, (hjunc _).mp hen, hid⟩
    · rintro ⟨w, hw, hq, hst, hen, hid⟩
      exact ⟨w, hp.mem_iff.mpr hw, hq, (hjunc _).mpr hst, (hjunc _).mpr hen, hid⟩
  refine ⟨hjunc, hmemres, ?_⟩
  have h1 : (analyze_file fs).1.Nodup := nodup_ways_between fs
  have h2 : (analyze_file fs').1.Nodup := nodup_ways_between fs'
  have hperm : (analyze_file fs).1.Perm (analyze_file fs').1 :=
    (List.perm_ext_iff_of_nodup h1 h2).mpr hmemres
  show (analyze_file fs).1.length = (analyze_file fs').1.length
  exact hperm.length_eq

/-- Witness for C6 on a concrete two-feature stream and its swap. -/
theorem analyze_perm_witness :
    (([triA, triB].map Feature.id).Nodup) ∧
    ((∀ n, n ∈ junction_nodes (scan [triA, triB]) ↔
        n ∈ junction_nodes (scan [triB, triA])) ∧
      (∀ wid, wid ∈ (analyze_file [triA, triB]).1 ↔
        wid ∈ (analyze_file [triB, triA]).1) ∧
      (analyze_file [triA, triB]).2 = (analyze_file [triB, triA]).2) :=
  ⟨by decide,
    analyze_perm [triA, triB] [triB, triA] (List.Perm.swap triB triA []) (by decide)⟩

/-! Conservation between the counters and the endpoint table. -/

/-- Total weight of a counter: the sum of all stored counts. -/
def sumVals (m : Counter) : Nat := (m.map Prod.snd).sum

theorem sumVals_incr (m : Counter) (k : Int) :
    sumVals (incr m k) = sumVals m + 1 := by
  induction m with
  | nil => simp [incr, sumVals]
  | cons kv rest ih =>
      obtain ⟨k', v⟩ := kv
      by_cases hk : k' = k
      · subst hk
        have hstep : incr ((k', v) :: rest) k' = (k', v + 1) :: rest := by
          simp [incr]
        rw [hstep]
        simp only [sumVals, List.map_cons, List.sum_cons]
        omega
      · simp only [incr, if_neg hk]
        simp only [sumVals, List.map_cons, List.sum_cons] at ih ⊢
        omega

theorem sumVals_scanFrom_start (fs : List Feature) :
    ∀ s : CounterState, sumVals (scanFrom s fs).node_to_way_start =
      sumVals s.node_to_way_start + fs.countP (fun w => qualifies w) := by
  induction fs with
  | nil => intro s; simp [scanFrom, sumVals]
  | cons w fs ih =>
      intro s
      rw [scanFrom_cons, ih]
      by_cases hq : qualifies w = true
      · have h1 : sumVals (way s w).node_to_way_start =
            sumVals s.node_to_way_start + 1 := by
          simp only [way, if_pos hq]
          exact sumVals_incr _ _
        have hcnt : (w :: fs).countP (fun v => qualifies v) =
            fs.countP (fun v => qualifies v) + 1 := by
          simp [List.countP_cons, hq]
        rw [h1, hcnt]
        omega
      · have hq' : qualifies w = false := by simpa using hq
        have h1 : way s w = s := by simp [way, hq']
        have hcnt : (w :: fs).countP (fun v => qualifies v) =
            fs.countP (fun v => qualifies v) := by
          simp [List.countP_cons, hq']
        rw [h1, hcnt]

theorem sumVals_scanFrom_end (fs : List Feature) :
    ∀ s : CounterState, sumVals (scanFrom s fs).node_to_way_end =
      sumVals s.node_to_way_end + fs.countP (fun w => qualifies w) := by
  induction fs with
  | nil => intro s; simp [scanFrom, sumVals]
  | cons w fs ih =>
      intro s
      rw [scanFrom_cons, ih]
      by_cases hq : qualifies w = true
      · have h1 : sumVals (way s w).node_to_way_end =
            sumVals s.node_to_way_end + 1 := by
          simp only [way, if_pos hq]
          exact sumVals_incr _ _
        have hcnt : (w :: fs).countP (fun v => qualifies v) =
            fs.countP (fun v => qualifies v) + 1 := by
          simp [List.countP_cons, hq]
        rw [h1, hcnt]
        omega
      · have hq' : qualifies w = false := by simpa using hq
        have h1 : way s w = s := by simp [way, hq']
        have hcnt : (w :: fs).countP (fun v => qualifies v) =
            fs.countP (fun v => qualifies v) := by
          simp [List.countP_cons, hq']
        rw [h1, hcnt]

/-- C10. After scanning a stream with pairwise distinct feature ids, the sum
of the starts counter values, the sum of the ends counter values, and the
number of endpoint-table entries all agree. -/
theorem scan_conservation (fs : List Feature)
    (hids : (fs.map Feature.id).Nodup) :
    sumVals (scan fs).node_to_way_start = (scan fs).way_endpoints.length ∧
    sumVals (scan fs).node_to_way_end = (scan fs).way_endpoints.length := by
  have htab : (scan fs).way_endpoints.length =
      fs.countP (fun w => qualifies w) := by
    rw [scan_endpoints fs hids]
    simp [List.countP_eq_length_filter]
  have h1 := sumVals_scanFrom_start fs initState
  have h2 := sumVals_scanFrom_end fs initState
  constructor
  · rw [htab]
    simpa [scan, initState, sumVals] using h1
  · rw [htab]
    simpa [scan, initState, sumVals] using h2

/-- Witness for C10 on the concrete triangle stream. -/
theorem scan_conservation_witness :
    (([triA, triB, triC].map Feature.id).Nodup) ∧
    (sumVals (scan [triA, triB, triC]).node_to_way_start =
      (scan [triA, triB, triC]).way_endpoints.length ∧
     sumVals (scan [triA, triB, triC]).node_to_way_end =
      (scan [triA, triB, triC]).way_endpoints.length) :=
  ⟨by decide, scan_conservation [triA, triB, triC] (by decide)⟩

/-! Region selection logic: `parse_size` and `pick_next_region`. -/

/-- One row of the tab-delimited ledger, fields `name, url, size, count`.
The `count` field models the Python string through the two cases
`get_count` distinguishes: `none` for the falsy empty string (unprocessed
region), `some n` for a numeric string with `int(r["count"]) = n`. -/
structure Region where
  name : String
  url : String
  size : String
  count : Option Int
  deriving DecidableEq

/-- The inner helper `get_count` of `pick_next_region`: `float("inf")`
(modelled as `none`) for an empty count field, else the parsed integer. -/
def get_count (r : Region) : Option Int := r.count

/-- Order on `get_count` values, `none` playing `float("inf")`, above every
integer. -/
def count_le (a b : Option Int) : Bool :=
  match b with
  | none => true
  | some y =>
      match a with
      | none => false
      | some x => decide (x ≤ y)

/-- Python `max(get_count(r) for r in regions)`: running maximum keeping the
earlier element on ties; `none` models the `ValueError` on an empty list. -/
def max_count : List Region → Option (Option Int)
  | [] => none
  | r :: rest =>
      some (rest.foldl
        (fun acc x => if count_le (get_count x) acc then acc else get_count x)
        (get_count r))

/-- A parsed size: a rational byte count, or `float("inf")` for the empty
size string. Python floats are modelled as exact rationals. -/
inductive PSize where
  | inf : PSize
  | val : ℚ → PSize
  deriving DecidableEq

/-- Order on parsed sizes used as the sort key: `inf` above every value. -/
def psize_le : PSize → PSize → Bool
  | _, PSize.inf => true
  | PSize.inf, PSize.val _ => false
  | PSize.val a, PSize.val b => decide (a ≤ b)

/-- The two `replace` calls of `parse_size`: drop every parenthesis. -/
def stripParens (cs : List Char) : List Char :=
  cs.filter (fun c => !(c == '(' || c == ')'))

/-- Python `str.split()` with no argument: split on runs of whitespace,
discarding empty pieces (`acc` carries the current piece reversed). -/
def splitWsAux : List Char → List Char → List (List Char)
  | [], acc => if acc.isEmpty then [] else [acc.reverse]
  | c :: cs, acc =>
      if c.isWhitespace then
        if acc.isEmpty then splitWsAux cs []
        else acc.reverse :: splitWsAux cs []
      else splitWsAux cs (c :: acc)

def splitWs (cs : List Char) : List (List Char) := splitWsAux cs []

/-- Numeric value of a run of decimal digits. -/
def digitsVal (cs : List Char) : Nat :=
  cs.foldl (fun a c => a * 10 + (c.toNat - Char.toNat '0')) 0

/-- Modelled from the decimal fragment of Python `float(...)`: unsigned
literals `d+`, `d+.d*`, `.d+` (the shapes size strings such as `6.9` take);
`none` models the `ValueError` on anything else. -/
def parseFloat (cs : List Char) : Option ℚ :=
  match cs.splitOn '.' with
  | [ip] =>
      if ip ≠ [] ∧ ip.all Char.isDigit then some (digitsVal ip : ℚ) else none
  | [ip, fp] =>
      if (ip ≠ [] ∨ fp ≠ []) ∧ ip.all Char.isDigit ∧ fp.all Char.isDigit then
        some ((digitsVal ip : ℚ) + (digitsVal fp : ℚ) / (10 : ℚ) ^ fp.length)
      else none
  | _ => none

/-- The `unit.startswith(...)` tests, on lowercased characters. -/
def startsWithChars : List Char → List Char → Bool
  | [], _ => true
  | _ :: _, [] => false
  | p :: ps, c :: cs => p == c && startsWithChars ps cs

/-- `parse_size`: the empty string is `float("inf")`; otherwise strip the
parentheses, split into exactly a number and a unit, and scale by the binary
unit multiplier chosen by the lowercased unit's prefix. `none` models a
raised `ValueError` (bad float or a field count other than two). -/
def parse_size (size_str : String) : Option PSize :=
  if size_str.data.isEmpty then some PSize.inf
  else
    match splitWs (stripParens size_str.data) with
    | [numCs, unitCs] =>
        match parseFloat numCs with
        | none => none
        | some num =>
            let unit := unitCs.map Char.toLower
            some (PSize.val
              (if startsWithChars ['k', 'b'] unit then num * 1024
               else if startsWithChars ['m', 'b'] unit then num * 1024 ^ 2
               else if startsWithChars ['g', 'b'] unit then num * 1024 ^ 3
               else num))
    | _ => none

/-- Stable insertion modelling one step of Python's stable `list.sort(key=...)`
on key-decorated candidates. -/
def insertBySize (x : PSize × Region) :
    List (PSize × Region) → List (PSize × Region)
  | [] => [x]
  | y :: ys =>
      if psize_le x.1 y.1 then x :: y :: ys else y :: insertBySize x ys

/-- Stable sort by parsed size (decorate-with-key then insertion sort, the
order Python's stable sort produces). -/
def sortBySize : List (PSize × Region) → List (PSize × Region)
  | [] => []
  | x :: xs => insertBySize x (sortBySize xs)

/-- Key computation of `candidates.sort(key=...)`: pair every candidate with
its parsed size, as Python's decorate step does before comparing; a single
failing key (`ValueError`) fails the whole sort call. -/
def decorate : List Region → Option (List (PSize × Region))
  | [] => some []
  | r :: rest =>
      match parse_size r.size with
      | none => none
      | some v =>
          match decorate rest with
          | none => none
          | some ks => some ((v, r) :: ks)

/-- `pick_next_region`: keep the regions whose `get_count` equals the maximum
(an empty count reading as infinity), sort them stably by parsed size,
return the first. `none` models the source's exceptions (empty `regions` for
`max`, `ValueError` from a sort key). -/
def pick_next_region (regions : List Region) : Option Region :=
  match max_count regions with
  | none => none
  | some mc =>
      match decorate (regions.filter (fun r => get_count r == mc)) with
      | none => none
      | some keyed => (sortBySize keyed).head?.map Prod.snd

/-! Lemmas for the selection logic. -/

theorem psize_le_refl (a : PSize) : psize_le a a = true := by
  cases a <;> simp [psize_le]

theorem psize_le_total (a b : PSize) :
    psize_le a b = true ∨ psize_le b a = true := by
  cases a <;> cases b <;> simp [psize_le]
  exact le_total _ _

theorem psize_le_trans {a b c : PSize} (h1 : psize_le a b = true)
    (h2 : psize_le b c = true) : psize_le a c = true := by
  cases a <;> cases b <;> cases c <;> simp_all [psize_le]
  exact le_trans h1 h2

theorem foldl_max_none (l : List Region) :
    ∀ acc : Option Int, (acc = none ∨ ∃ x ∈ l, get_count x = none) →
      l.foldl (fun acc x =>
        if count_le (get_count x) acc then acc else get_count x) acc = none := by
  induction l with
  | nil =>
      intro acc h
      rcases h with h | ⟨x, hx, _⟩
      · simpa using h
      · cases hx
  | cons a l ih =>
      intro acc h
      simp only [List.foldl_cons]
      apply ih
      rcases h with h | ⟨x, hx, hcx⟩
      · subst h
        left
        simp [count_le]
      · rcases List.mem_cons.mp hx with rfl | hx'
        · cases hacc : acc with
          | none => left; simp [count_le]
          | some y => left; simp [hcx, count_le]
        · right
          exact ⟨x, hx', hcx⟩

theorem max_count_eq_inf (regions : List Region)
    (h : ∃ r ∈ regions, r.count = none) :
    max_count regions = some none := by
  cases regions with
  | nil =>
      obtain ⟨r, hr, _⟩ := h
      cases hr
  | cons a rest =>
      simp only [max_count]
      refine congrArg some ?_
      apply foldl_max_none
      obtain ⟨r, hr, hc⟩ := h
      rcases List.mem_cons.mp hr with rfl | hr'
      · exact Or.inl hc
      · exact Or.inr ⟨r, hr', hc⟩

theorem mem_filter_inf (regions : List Region) (r : Region) :
    r ∈ regions.filter (fun r => get_count r == (none : Option Int)) ↔
      r ∈ regions ∧ r.count = none := by
  rw [List.mem_filter]
  simp [get_count]

theorem decorate_some (l : List Region)
    (h : ∀ r ∈ l, (parse_size r.size).isSome) :
    ∃ keyed : List (PSize × Region),
      decorate l = some keyed ∧
      keyed.map Prod.snd = l ∧
      ∀ p ∈ keyed, parse_size p.2.size = some p.1 := by
  induction l with
  | nil => exact ⟨[], rfl, rfl, by simp⟩
  | cons r l ih =>
      obtain ⟨v, hv⟩ := Option.isSome_iff_exists.mp (h r (List.mem_cons_self _ _))
      obtain ⟨keyed, hk1, hk2, hk3⟩ := ih (fun x hx => h x (List.mem_cons_of_mem _ hx))
      refine ⟨(v, r) :: keyed, ?_, by simp [hk2], ?_⟩
      · simp [decorate, hv, hk1]
      · intro p hp
        rcases List.mem_cons.mp hp with rfl | hp'
        · simpa using hv
        · exact hk3 p hp'

theorem mem_insertBySize (x y : PSize × Region) (l : List (PSize × Region)) :
    y ∈ insertBySize x l ↔ y = x ∨ y ∈ l := by
  induction l with
  | nil => simp [insertBySize]
  | cons z l ih =>
      cases h : psize_le x.1 z.1 with
      | true =>
          simp only [insertBySize, h, if_true, List.mem_cons]
      | false =>
          simp only [List.mem_cons] at ih
          simp [insertBySize, h, ih]
          tauto

theorem mem_sortBySize (y : PSize × Region) (l : List (PSize × Region)) :
    y ∈ sortBySize l ↔ y ∈ l := by
  induction l with
  | nil => simp [sortBySize]
  | cons x xs ih => simp [sortBySize, mem_insertBySize, ih]

theorem pairwise_insertBySize (x : PSize × Region) (l : List (PSize × Region))
    (h : l.Pairwise (fun a b => psize_le a.1 b.1 = true)) :
    (insertBySize x l).Pairwise (fun a b => psize_le a.1 b.1 = true) := by
  induction l with
  | nil => simp [insertBySize]
  | cons z zs ih =>
      rcases List.pairwise_cons.mp h with ⟨hz, hzs⟩
      cases hle : psize_le x.1 z.1 with
      | true =>
          simp only [insertBySize, hle, if_true]
          refine List.pairwise_cons.mpr ⟨?_, h⟩
          intro b hb
          rcases List.mem_cons.mp hb with rfl | hb'
          · exact hle
          · exact psize_le_trans hle (hz b hb')
      | false =>
          simp only [insertBySize, hle]
          refine List.pairwise_cons.mpr ⟨?_, ih hzs⟩
          intro b hb
          rcases (mem_insertBySize x b zs).mp hb with rfl | hb'
          · rcases psize_le_total z.1 b.1 with hh | hh
            · exact hh
            · rw [hle] at hh
              cases hh
          · exact hz b hb'

theorem sorted_sortBySize (l : List (PSize × Region)) :
    (sortBySize l).Pairwise (fun a b => psize_le a.1 b.1 = true) := by
  induction l with
  | nil => simp [sortBySize]
  | cons x xs ih => exact pairwise_insertBySize x (sortBySize xs) ih

theorem head_min_sortBySize (l : List (PSize × Region)) (p : PSize × Region)
    (rest : List (PSize × Region)) (h : sortBySize l = p :: rest)
    (q : PSize × Region) (hq : q ∈ l) : psize_le p.1 q.1 = true := by
  have hsorted := sorted_sortBySize l
  rw [h] at hsorted
  have hqmem : q ∈ p :: rest := by
    rw [← h]
    exact (mem_sortBySize q l).mpr hq
  rcases List.mem_cons.mp hqmem with rfl | hq'
  · exact psize_le_refl _
  · exact (List.pairwise_cons.mp hsorted).1 q hq'

/-- C9. Whenever the ledger is non-empty, some row has an empty count field,
and every unprocessed row's size parses, `pick_next_region` returns an
unprocessed region — one with an empty count — whose parsed size is smallest
among all unprocessed regions. -/
theorem pick_next_region_unprocessed (regions : List Region)
    (hne : regions ≠ [])
    (hun : ∃ r ∈ regions, r.count = none)
    (hps : ∀ r ∈ regions, r.count = none → (parse_size r.size).isSome) :
    ∃ r, pick_next_region regions = some r ∧ r.count = none ∧ r ∈ regions ∧
      ∀ r' ∈ regions, r'.count = none →
        ∀ v v', parse_size r.size = some v → parse_size r'.size = some v' →
          psize_le v v' = true := by
  have hmax : max_count regions = some none := max_count_eq_inf regions hun
  have hpsall :
      ∀ r ∈ regions.filter (fun r => get_count r == (none : Option Int)),
        (parse_size r.size).isSome := by
    intro r hr
    rcases (mem_filter_inf regions r).mp hr with ⟨h1, h2⟩
    exact hps r h1 h2
  obtain ⟨keyed, hk1, hk2, hk3⟩ := decorate_some _ hpsall
  obtain ⟨r0, hr0m, hr0c⟩ := hun
  have hr0cand :
      r0 ∈ regions.filter (fun r => get_count r == (none : Option Int)) :=
    (mem_filter_inf regions r0).mpr ⟨hr0m, hr0c⟩
  have hkeyed_ne : keyed ≠ [] := by
    intro hnil
    rw [hnil] at hk2
    rw [← hk2] at hr0cand
    cases hr0cand
  cases hsort : sortBySize keyed with
  | nil =>
      exfalso
      cases hkl : keyed with
      | nil => exact hkeyed_ne hkl
      | cons k ks =>
          have hm : k ∈ sortBySize keyed :=
            (mem_sortBySize k keyed).mpr (by rw [hkl]; exact List.mem_cons_self _ _)
          rw [hsort] at hm
          cases hm
  | cons p rest =>
      have hp_mem : p ∈ keyed :=
        (mem_sortBySize p keyed).mp (by rw [hsort]; exact List.mem_cons_self _ _)
      have hp_cand :
          p.2 ∈ regions.filter (fun r => get_count r == (none : Option Int)) := by
        rw [← hk2]
        exact List.mem_map_of_mem Prod.snd hp_mem
      have hp_both := (mem_filter_inf regions p.2).mp hp_cand
      have hpick : pick_next_region regions = some p.2 := by
        simp [pick_next_region, hmax, hk1, hsort]
      refine ⟨p.2, hpick, hp_both.2, hp_both.1, ?_⟩
      intro r' hr' hc' v v' hv hv'
      have hr'cand :
          r' ∈ regions.filter (fun r => get_count r == (none : Option Int)) :=
        (mem_filter_inf regions r').mpr ⟨hr', hc'⟩
      rw [← hk2] at hr'cand
      rcases List.mem_map.mp hr'cand with ⟨q, hq, hq2⟩
      have hqv : q.1 = v' := by
        have hh := hk3 q hq
        rw [hq2, hv'] at hh
        exact (Option.some.inj hh).symm
      have hpv : p.1 = v := by
        have hh := hk3 p hp_mem
        rw [hv] at hh
        exact (Option.some.inj hh).symm
      have hmin := head_min_sortBySize keyed p rest hsort q hq
      rw [hpv, hqv] at hmin
      exact hmin

/-- Concrete ledger row: a processed large region. -/
def regA : Region := ⟨"alpha", "http-a", "(6.9 GB)", some 12⟩

/-- Concrete ledger row: an unprocessed small region. -/
def regB : Region := ⟨"beta", "http-b", "(2.5 KB)", none⟩

/-- Concrete ledger row: an unprocessed slightly larger region. -/
def regC : Region := ⟨"gamma", "http-c", "(3 KB)", none⟩

/-- Witness for C9 on a concrete three-row ledger with two unprocessed rows. -/
theorem pick_next_region_witness :
    ([regA, regB, regC] ≠ []) ∧
    (∃ r ∈ [regA, regB, regC], r.count = none) ∧
    (∃ r, pick_next_region [regA, regB, regC] = some r ∧ r.count = none ∧
      r ∈ [regA, regB, regC] ∧
      ∀ r' ∈ [regA, regB, regC], r'.count = none →
        ∀ v v', parse_size r.size = some v → parse_size r'.size = some v' →
          psize_le v v' = true) :=
  ⟨by decide, by decide,
    pick_next_region_unprocessed [regA, regB, regC]
      (by decide) (by decide) (by decide)⟩

end ReverseWaterways
